import Mathlib

set_option maxHeartbeats 1000000
set_option linter.unusedSectionVars false

/-!
Verification of the CakeDb typed access layer over an ordered transactional
key-value engine. Tables are embedded as association lists with unique-key
upsert semantics; the savepoint index is embedded as the list of ids held in
the in-memory `BTreeMap`; the engine's transaction contract (a write
transaction works on its own view and an uncommitted transaction rolls back)
is made explicit where a claim depends on it.
-/

namespace CakeDb

/-- Errors surfaced by the layer, abstracting the source's boxed error values:
`notFound` for the logical missing-key and missing-savepoint failures,
`tableDoesNotExist` for a read-open of an absent table, `engineFailure` for an
injected engine-level failure inside a transaction. -/
inductive DbError where
  | notFound
  | tableDoesNotExist
  | engineFailure
deriving DecidableEq, Repr

instance {ε α : Type} [DecidableEq ε] [DecidableEq α] : DecidableEq (Except ε α) := fun x y =>
  match x, y with
  | .ok a, .ok b => decidable_of_iff (a = b) (by simp)
  | .error e, .error f => decidable_of_iff (e = f) (by simp)
  | .ok _, .error _ => isFalse (fun hc => Except.noConfusion hc)
  | .error _, .ok _ => isFalse (fun hc => Except.noConfusion hc)

/-- Contents of a plain (unique-key) table: an association list; `lookup` and
`upsert` below keep at most one binding per key observable. -/
abbrev Table (K V : Type) := List (K × V)

variable {K V : Type} [DecidableEq K] [DecidableEq V]

/-- Engine `get` on a table: first binding of the key, if any. -/
def lookup : Table K V → K → Option V
  | [], _ => none
  | (k', v) :: rest, k => if k = k' then some v else lookup rest k

/-- Engine `insert` on a table (the mutation part): replace the binding of the
key if present, otherwise add it. The value previously bound — what redb's
`insert` returns — is `lookup` before the call. -/
def upsert : Table K V → K → V → Table K V
  | [], k, v => [(k, v)]
  | (k', v') :: rest, k, v =>
      if k = k' then (k, v) :: rest else (k', v') :: upsert rest k v

/-- Savepoint index: the ids held in the `BTreeMap<usize, CakeSavepoint>`. -/
abbrev SpIndex := List Nat

/-- Largest id in the index (`BTreeMap::last_key_value`), if any. -/
def spMax : SpIndex → Option Nat
  | [] => none
  | k :: rest =>
      match spMax rest with
      | none => some k
      | some m => some (max k m)

/-- `BTreeMap::insert` restricted to keys: add-or-keep semantics on ids. -/
def spInsert (s : SpIndex) (k : Nat) : SpIndex := if k ∈ s then s else s ++ [k]

/-- `CakeDb::savepoint` on the index: the new id is `max + 1`, or `0` when the
index is empty, and the savepoint is stored under that id. Returns the new
index and the returned id. -/
def savepoint (s : SpIndex) : SpIndex × Nat :=
  let key : Nat :=
    match spMax s with
    | some m => m + 1
    | none => 0
  (spInsert s key, key)

/-- `CakeDb::load_savepoint`: fails with `notFound` when the id is absent;
otherwise restores and then retains only savepoints with id at most the
restored id. Returns the resulting index. -/
def load_savepoint (s : SpIndex) (key : Nat) : Except DbError SpIndex :=
  if key ∈ s then .ok (s.filter (fun j => j ≤ key)) else .error .notFound

/-- `CakeDb::clear_savepoints`: drops the whole index. -/
def clear_savepoints (_ : SpIndex) : SpIndex := ([] : SpIndex)

/-- The byte-level comparator of `impl Key for Bincode<T>`: it decodes both
byte sequences and compares the decoded values with the type's own order
(`Self::from_bytes(data1).cmp(&Self::from_bytes(data2))`). Bytes are modelled
as lists of naturals; the codec itself is external and passed as `dec`. -/
def bincodeCompare {T : Type} [Ord T] (dec : List Nat → T) (b1 b2 : List Nat) : Ordering :=
  compare (dec b1) (dec b2)

/-- First value paired with the key in the input sequence, if any. -/
def firstVal (k : K) : List (K × V) → Option V
  | [] => none
  | (k', v) :: rest => if k = k' then some v else firstVal k rest

/-- Last value paired with the key in the input sequence, if any. -/
def lastVal (k : K) : List (K × V) → Option V
  | [] => none
  | (k', v) :: rest =>
      match lastVal k rest with
      | some w => some w
      | none => if k = k' then some v else none

/-- Values paired with the key in the input sequence, in order. -/
def occVals (k : K) : List (K × V) → List V
  | [] => []
  | (k', v) :: rest => if k = k' then v :: occVals k rest else occVals k rest

/-- The element immediately preceding the last element of a list, if the list
has at least two elements. -/
def beforeLast : List V → Option V
  | [] => none
  | [_] => none
  | a :: b :: rest =>
      match beforeLast (b :: rest) with
      | some w => some w
      | none => some a

/-- Number of occurrences of an element in a list of keys. -/
def countEq (k : K) : List K → Nat
  | [] => 0
  | x :: rest => (if x = k then 1 else 0) + countEq k rest

/-- Number of pairs in the input sequence whose key is the given one. -/
def countKeys (k : K) : List (K × V) → Nat
  | [] => 0
  | kv :: rest => (if kv.1 = k then 1 else 0) + countKeys k rest

/-- Loop of `CakeDb::batch_try_add` inside its single write transaction: for
each pair in order, insert it when the key reads as absent from the
transaction's table, otherwise push the key onto the `existing` list. -/
def batch_try_add_go : Table K V → List K → List (K × V) → Table K V × List K
  | t, ex, [] => (t, ex)
  | t, ex, (k, v) :: rest =>
      match lookup t k with
      | none => batch_try_add_go (upsert t k v) ex rest
      | some _ => batch_try_add_go t (ex ++ [k]) rest

/-- `CakeDb::batch_try_add`: one write transaction, committed after the loop.
Returns the table contents after commit and the keys that were already
present. -/
def batch_try_add (t : Table K V) (pairs : List (K × V)) : Table K V × List K :=
  batch_try_add_go t [] pairs

/-- Loop of `CakeDb::batch_insert` inside its single write transaction: each
pair is inserted unconditionally; when the engine's insert reports a previous
value, that value is recorded into the `old_pairs` map (a `BTreeMap`, so a
later record for the same key overwrites an earlier one). -/
def batch_insert_go : Table K V → Table K V → List (K × V) → Table K V × Table K V
  | t, old, [] => (t, old)
  | t, old, (k, v) :: rest =>
      match lookup t k with
      | some ov => batch_insert_go (upsert t k v) (upsert old k ov) rest
      | none => batch_insert_go (upsert t k v) old rest

/-- `CakeDb::batch_insert`: one write transaction, committed after the loop.
Returns the table contents after commit and the `old_pairs` map. -/
def batch_insert (t : Table K V) (pairs : List (K × V)) : Table K V × Table K V :=
  batch_insert_go t [] pairs

/-- Loop of `CakeDb::batch_insert` under an injected engine failure: step `i`
of the loop fails iff `fail i`. On failure the error propagates out of the
function (the `?` operator), so the loop stops and commit is never reached. -/
def batch_insert_fallible_go :
    Table K V → Table K V → (Nat → Bool) → Nat → List (K × V) →
      Except DbError (Table K V × Table K V)
  | t, old, _, _, [] => .ok (t, old)
  | t, old, fail, i, (k, v) :: rest =>
      if fail i then .error .engineFailure
      else
        match lookup t k with
        | some ov => batch_insert_fallible_go (upsert t k v) (upsert old k ov) fail (i + 1) rest
        | none => batch_insert_fallible_go (upsert t k v) old fail (i + 1) rest

/-- `CakeDb::batch_insert` at the store level under an injected engine
failure. The write transaction works on its own view of the table; the single
`commit` at the end installs that view as the store's table, and a transaction
dropped before commit is rolled back by the engine, leaving the store's table
untouched. Returns the store's table after the call together with the result. -/
def batch_insert_fallible (db : Table K V) (pairs : List (K × V)) (fail : Nat → Bool) :
    Table K V × Except DbError (Table K V) :=
  match batch_insert_fallible_go db [] fail 0 pairs with
  | .error e => (db, .error e)
  | .ok (txn, old) => (txn, .ok old)

/-- `CakeDb::update`: inside one write transaction, read the key; when absent,
fail with `notFound` before the edit closure is ever used; when present, apply
the edit to the decoded copy and re-insert it. The engine's insert returns the
previous value, which is returned (its `None` arm mirrors the source's
unreachable second `key not found` return). -/
def update (t : Table K V) (k : K) (edit : V → V) : Except DbError (Table K V × V) :=
  match lookup t k with
  | none => .error .notFound
  | some v =>
      let edited := edit v
      let prev := lookup t k
      let t' := upsert t k edited
      match prev with
      | some ov => .ok (t', ov)
      | none => .error .notFound

/-- Contents of a multimap table: the set of `(key, value)` pairs, as a list
without duplicate pairs (the insert below never creates one). -/
abbrev MTable (K V : Type) := List (K × V)

/-- Value set of a key in a multimap table (`MultimapTable::get`). -/
def mlookup (m : MTable K V) (k : K) : List V :=
  (m.filter (fun kv => kv.1 = k)).map (fun kv => kv.2)

/-- Engine multimap insert: a no-op when the pair is already present; returns
whether it was present. -/
def minsert (m : MTable K V) (k : K) (v : V) : MTable K V × Bool :=
  if (k, v) ∈ m then (m, true) else (m ++ [(k, v)], false)

/-- Engine multimap `remove_all`: drops every pair of the key and returns the
removed value set. -/
def mremove_all (m : MTable K V) (k : K) : MTable K V × List V :=
  (m.filter (fun kv => ¬ kv.1 = k), mlookup m k)

/-- `CakeDb::multimap_assign`: inside one write transaction, `remove_all` the
key (recording whether the removed set was non-empty) and then insert each new
value; returns the new table contents and whether the key had a value before. -/
def multimap_assign (m : MTable K V) (k : K) (vs : List V) : MTable K V × Bool :=
  let removed := mremove_all m k
  let m2 := vs.foldl (fun acc v => (minsert acc k v).1) removed.1
  (m2, !removed.2.isEmpty)

/-- A store holding one plain table that may not have been created yet
(`none`: the table does not exist in the engine). -/
structure Store (K V : Type) where
  table : Option (Table K V)
deriving DecidableEq

/-- `CakeDb::read_table`: open the table for read; on `TableDoesNotExist`,
open a separate write transaction that creates the (empty) table, commit it,
and retry the read-open. Returns the store after the call and the contents
read. -/
def read_table (s : Store K V) : Store K V × Table K V :=
  match s.table with
  | some t => (s, t)
  | none => ({ table := some [] }, [])

/-- `CakeDb::get`: read the table through `read_table` and look the key up. -/
def get (s : Store K V) (k : K) : Store K V × Option V :=
  let p := read_table s
  (p.1, lookup p.2 k)

/-- `CakeDb::delete_table`: drop the table; returns whether it existed. -/
def delete_table (s : Store K V) : Store K V × Bool :=
  ({ table := none }, s.table.isSome)

/-- A store holding one multimap table that may not have been created yet. -/
structure MStore (K V : Type) where
  table : Option (MTable K V)
deriving DecidableEq

/-- `CakeDb::read_multimap_table`: open the multimap table for read; any open
failure — in particular `TableDoesNotExist` — is propagated as an error, with
no auto-creation. The store is returned unchanged. -/
def read_multimap_table (s : MStore K V) : MStore K V × Except DbError (MTable K V) :=
  match s.table with
  | some t => (s, .ok t)
  | none => (s, .error .tableDoesNotExist)

/-- `CakeDb::multimap_get`: read the table through `read_multimap_table` and
collect the key's value set; errors propagate. -/
def multimap_get (s : MStore K V) (k : K) : MStore K V × Except DbError (List V) :=
  let p := read_multimap_table s
  (p.1, p.2.map (fun t => mlookup t k))

/-- `CakeDb::multimap_table`: read the whole table through
`read_multimap_table`; errors propagate. -/
def multimap_table (s : MStore K V) : MStore K V × Except DbError (MTable K V) :=
  read_multimap_table s

theorem lookup_upsert_self (t : Table K V) (k : K) (v : V) :
    lookup (upsert t k v) k = some v := by
  induction t with
  | nil => simp [upsert, lookup]
  | cons hd tl ih =>
      obtain ⟨k', v'⟩ := hd
      by_cases h : k = k'
      · simp [upsert, lookup, h]
      · simp [upsert, lookup, h, ih]

theorem lookup_upsert_ne (t : Table K V) (k k' : K) (v : V) (h : k ≠ k') :
    lookup (upsert t k' v) k = lookup t k := by
  induction t with
  | nil => simp [upsert, lookup, h]
  | cons hd tl ih =>
      obtain ⟨k'', v''⟩ := hd
      by_cases h2 : k' = k''
      · subst h2
        simp [upsert, lookup, h]
      · by_cases h3 : k = k''
        · simp [upsert, lookup, h2, h3]
        · simp [upsert, lookup, h2, h3, ih]

theorem mem_le_spMax (s : SpIndex) (j : Nat) (hj : j ∈ s) :
    ∃ m, spMax s = some m ∧ j ≤ m := by
  induction s with
  | nil => cases hj
  | cons k rest ih =>
      cases hrest : spMax rest with
      | none =>
          rcases List.mem_cons.mp hj with h | h
          · subst h
            exact ⟨j, by simp [spMax, hrest], le_refl j⟩
          · obtain ⟨m, hm, _⟩ := ih h
            rw [hrest] at hm
            cases hm
      | some m' =>
          rcases List.mem_cons.mp hj with h | h
          · subst h
            exact ⟨max j m', by simp [spMax, hrest], le_max_left j m'⟩
          · obtain ⟨m, hm, hle⟩ := ih h
            rw [hrest] at hm
            have hm2 : m' = m := by injection hm
            refine ⟨max k m', by simp [spMax, hrest], ?_⟩
            rw [hm2]
            exact le_trans hle (le_max_right k m)

/-- C2. Savepoint invalidation: after a successful `load_savepoint id`, the
index holds exactly the previously held ids that are at most `id`; loading any
strictly greater id now fails with `notFound`, while loading `id` again
succeeds. -/
theorem load_savepoint_invalidation (s s' : SpIndex) (id : Nat)
    (h : load_savepoint s id = .ok s') :
    (∀ j, j ∈ s' ↔ (j ∈ s ∧ j ≤ id)) ∧
    (∀ j, id < j → load_savepoint s' j = .error .notFound) ∧
    (∃ s'', load_savepoint s' id = .ok s'') := by
  by_cases hmem : id ∈ s
  · simp only [load_savepoint, if_pos hmem, Except.ok.injEq] at h
    subst h
    refine ⟨?_, ?_, ?_⟩
    · intro j
      simp [List.mem_filter]
    · intro j hij
      have hnot : j ∉ s.filter (fun x => x ≤ id) := by
        simp only [List.mem_filter, decide_eq_true_eq]
        intro hc
        omega
      simp [load_savepoint, hnot]
    · have hin : id ∈ s.filter (fun x => x ≤ id) := by
        simp [List.mem_filter, hmem]
      refine ⟨(s.filter (fun j => j ≤ id)).filter (fun j => j ≤ id), ?_⟩
      rw [load_savepoint, if_pos hin]
  · simp [load_savepoint, if_neg hmem] at h

/-- Witness for C2 at a concrete trace: after creating savepoints 0 and 1,
restoring 0 leaves index `[0]`; loading 1 then fails with `notFound`. -/
theorem load_savepoint_invalidation_witness :
    load_savepoint [0, 1] 0 = .ok [0] ∧
    load_savepoint [0] 1 = .error DbError.notFound := by
  refine ⟨by decide, ?_⟩
  exact (load_savepoint_invalidation [0, 1] [0] 0 (by decide)).2.1 1 (by decide)

/-- C3 counterexample: the first `savepoint` call on an empty index returns id
0; after `clear_savepoints` deletes it, the next `savepoint` call returns id 0
again — an id is reused after a deletion, contradicting the claim that ids are
never reused even after savepoints are deleted. -/
theorem savepoint_id_reuse_counterexample :
    savepoint [] = ([0], 0) ∧
    clear_savepoints [0] = [] ∧
    (savepoint (clear_savepoints [0])).2 = 0 := by decide

/-- C3 amended. Each `savepoint` call returns `max(existing ids) + 1`, or `0`
when the index is empty; the returned id is strictly greater than every id
currently in the index (hence never collides with a live id, and ids strictly
increase while no savepoint is deleted), and it is appended as the new largest
id. Ids may however be reused after deletions (clearing, or restore
invalidation). -/
theorem savepoint_id_spec (s : SpIndex) :
    ((savepoint s).2 = match spMax s with | some m => m + 1 | none => 0) ∧
    (∀ j, j ∈ s → j < (savepoint s).2) ∧
    (savepoint s).2 ∉ s ∧
    (savepoint s).1 = s ++ [(savepoint s).2] := by
  have hgt : ∀ j, j ∈ s → j < (savepoint s).2 := by
    intro j hj
    obtain ⟨m, hm, hle⟩ := mem_le_spMax s j hj
    simp only [savepoint, hm]
    omega
  have hnot : (savepoint s).2 ∉ s := fun hc => lt_irrefl _ (hgt _ hc)
  refine ⟨by simp [savepoint], hgt, hnot, ?_⟩
  simp only [savepoint] at hnot ⊢
  simp [spInsert, hnot]

/-- Witness for C3's amended theorem on the concrete index `[3, 5]`: the next
id is greater than the member 5, is not itself a member, and is appended. -/
theorem savepoint_id_spec_witness :
    5 < (savepoint [3, 5]).2 ∧
    (savepoint [3, 5]).2 ∉ ([3, 5] : SpIndex) ∧
    (savepoint [3, 5]).1 = [3, 5] ++ [(savepoint [3, 5]).2] :=
  ⟨(savepoint_id_spec [3, 5]).2.1 5 (by decide),
   (savepoint_id_spec [3, 5]).2.2.1,
   (savepoint_id_spec [3, 5]).2.2.2⟩

/-- C4. Codec order preservation: for every key type with a total order and
every codec satisfying the round-trip law `dec (enc v) = v`, the comparator of
`Bincode<T>` — which decodes both sides and compares the decoded values —
agrees exactly with the order on the original values:
`compare (enc a) (enc b) = compare a b`. -/
theorem bincodeCompare_order_preserving {T : Type} [Ord T]
    (enc : T → List Nat) (dec : List Nat → T)
    (hround : ∀ v, dec (enc v) = v) (a b : T) :
    bincodeCompare dec (enc a) (enc b) = compare a b := by
  unfold bincodeCompare
  rw [hround, hround]

/-- Witness for C4 with the concrete codec `enc n = [n]`, `dec l = l.headD 0`
on naturals, which satisfies the round-trip law. -/
theorem bincodeCompare_order_preserving_witness :
    (∀ v : Nat, (fun l : List Nat => l.headD 0) ((fun n : Nat => [n]) v) = v) ∧
    bincodeCompare (fun l : List Nat => l.headD 0)
        ((fun n : Nat => [n]) 3) ((fun n : Nat => [n]) 5) = compare 3 5 :=
  ⟨fun _ => rfl,
   bincodeCompare_order_preserving (fun n : Nat => [n]) (fun l : List Nat => l.headD 0)
     (fun _ => rfl) 3 5⟩

theorem batch_try_add_go_lookup (pairs : List (K × V)) :
    ∀ (t : Table K V) (ex : List K) (k : K),
      lookup (batch_try_add_go t ex pairs).1 k
        = match lookup t k with
          | some v => some v
          | none => firstVal k pairs := by
  induction pairs with
  | nil =>
      intro t ex k
      simp [batch_try_add_go, firstVal]
      cases lookup t k <;> rfl
  | cons hd rest ih =>
      intro t ex k
      obtain ⟨k', v'⟩ := hd
      cases h : lookup t k' with
      | none =>
          simp only [batch_try_add_go, h]
          rw [ih]
          by_cases hkk : k = k'
          · subst hkk
            rw [lookup_upsert_self, h]
            simp [firstVal]
          · rw [lookup_upsert_ne _ _ _ _ hkk]
            simp only [firstVal, if_neg hkk]
      | some w =>
          simp only [batch_try_add_go, h]
          rw [ih]
          by_cases hkk : k = k'
          · subst hkk
            rw [h]
          · simp only [firstVal, if_neg hkk]

theorem countEq_append (k : K) (a b : List K) :
    countEq k (a ++ b) = countEq k a + countEq k b := by
  induction a with
  | nil => simp [countEq]
  | cons x rest ih => simp [countEq, ih]; omega

theorem batch_try_add_go_existing (pairs : List (K × V)) :
    ∀ (t : Table K V) (ex : List K) (k : K),
      countEq k (batch_try_add_go t ex pairs).2
        = countEq k ex +
          (match lookup t k with
           | none => countKeys k pairs - 1
           | some _ => countKeys k pairs) := by
  induction pairs with
  | nil =>
      intro t ex k
      simp only [batch_try_add_go, countKeys]
      cases lookup t k <;> simp
  | cons hd rest ih =>
      intro t ex k
      obtain ⟨k', v'⟩ := hd
      cases h : lookup t k' with
      | none =>
          simp only [batch_try_add_go, h]
          rw [ih]
          by_cases hkk : k = k'
          · subst hkk
            rw [lookup_upsert_self, h]
            simp [countKeys]
          · rw [lookup_upsert_ne _ _ _ _ hkk]
            have hne : ¬ (k' = k) := fun hc => hkk hc.symm
            simp only [countKeys, hne, if_false]
            cases lookup t k <;> simp
      | some w =>
          simp only [batch_try_add_go, h]
          rw [ih]
          by_cases hkk : k = k'
          · subst hkk
            rw [h]
            rw [countEq_append]
            simp [countKeys, countEq]
            exact Nat.add_assoc _ 1 _
          · have hne : ¬ (k' = k) := fun hc => hkk hc.symm
            rw [countEq_append]
            simp only [countKeys, countEq, hne, if_false]
            cases lookup t k <;> simp

/-- C5. `batch_try_add`: a pair is inserted only when its key is absent from
the table as mutated so far, so the final binding of any key `k` is its
pre-batch value when present, and otherwise the value of the first occurrence
of `k` in the input; the returned list of already-present keys contains `k`
once per occurrence when `k` was present before the batch, and once per
occurrence after the first when `k` was absent (its first occurrence having
been inserted). -/
theorem batch_try_add_spec (t : Table K V) (pairs : List (K × V)) (k : K) :
    (lookup (batch_try_add t pairs).1 k
       = match lookup t k with
         | some v => some v
         | none => firstVal k pairs) ∧
    (countEq k (batch_try_add t pairs).2
       = match lookup t k with
         | none => countKeys k pairs - 1
         | some _ => countKeys k pairs) := by
  constructor
  · exact batch_try_add_go_lookup pairs t [] k
  · rw [batch_try_add, batch_try_add_go_existing pairs t [] k]
    simp [countEq]

theorem batch_insert_go_fst (pairs : List (K × V)) :
    ∀ (t old : Table K V) (k : K),
      lookup (batch_insert_go t old pairs).1 k
        = match lastVal k pairs with
          | some w => some w
          | none => lookup t k := by
  induction pairs with
  | nil =>
      intro t old k
      simp [batch_insert_go, lastVal]
  | cons hd rest ih =>
      intro t old k
      obtain ⟨k', v'⟩ := hd
      by_cases hkk : k = k'
      · subst hkk
        cases h : lookup t k with
        | some ov =>
            simp only [batch_insert_go, h]
            rw [ih]
            cases hl : lastVal k rest <;> simp [lastVal, hl, lookup_upsert_self]
        | none =>
            simp only [batch_insert_go, h]
            rw [ih]
            cases hl : lastVal k rest <;> simp [lastVal, hl, lookup_upsert_self]
      · cases h : lookup t k' with
        | some ov =>
            simp only [batch_insert_go, h]
            rw [ih, lookup_upsert_ne _ _ _ _ hkk]
            cases hl : lastVal k rest <;> simp [lastVal, hl, hkk]
        | none =>
            simp only [batch_insert_go, h]
            rw [ih, lookup_upsert_ne _ _ _ _ hkk]
            cases hl : lastVal k rest <;> simp [lastVal, hl, hkk]

theorem batch_insert_go_snd (pairs : List (K × V)) :
    ∀ (t old : Table K V) (k : K),
      lookup (batch_insert_go t old pairs).2 k
        = match beforeLast (occVals k pairs) with
          | some w => some w
          | none =>
              if (occVals k pairs).isEmpty then lookup old k
              else
                match lookup t k with
                | some ov => some ov
                | none => lookup old k := by
  induction pairs with
  | nil =>
      intro t old k
      simp [batch_insert_go, occVals, beforeLast]
  | cons hd rest ih =>
      intro t old k
      obtain ⟨k', v'⟩ := hd
      by_cases hkk : k = k'
      · subst hkk
        cases h : lookup t k with
        | some ov =>
            simp only [batch_insert_go, h]
            rw [ih]
            rw [lookup_upsert_self, lookup_upsert_self]
            simp only [occVals, if_pos rfl]
            cases ho : occVals k rest with
            | nil => simp [beforeLast, h]
            | cons w ws =>
                cases hb : beforeLast (w :: ws) <;>
                  simp [beforeLast, hb, h]
        | none =>
            simp only [batch_insert_go, h]
            rw [ih]
            rw [lookup_upsert_self]
            simp only [occVals, if_pos rfl]
            cases ho : occVals k rest with
            | nil => simp [beforeLast, h]
            | cons w ws =>
                cases hb : beforeLast (w :: ws) <;>
                  simp [beforeLast, hb, h]
      · cases h : lookup t k' with
        | some ov =>
            simp only [batch_insert_go, h]
            rw [ih]
            rw [lookup_upsert_ne _ _ _ _ hkk, lookup_upsert_ne _ _ _ _ hkk]
            simp only [occVals, if_neg hkk]
        | none =>
            simp only [batch_insert_go, h]
            rw [ih]
            rw [lookup_upsert_ne _ _ _ _ hkk]
            simp only [occVals, if_neg hkk]

/-- C6 counterexample: with the table holding `(1, 10)` and the input
`[(1, 11), (1, 12)]`, key 1 is present before the batch with value 10 and
occurs in the input, yet the returned map sends 1 to 11 — the value of the
previous occurrence inside the batch — not to the prior value 10 the claim
requires. -/
theorem batch_insert_prior_value_counterexample :
    lookup ([((1 : Nat), (10 : Nat))] : Table Nat Nat) 1 = some 10 ∧
    lookup (batch_insert [((1 : Nat), (10 : Nat))] [(1, 11), (1, 12)]).2 1 = some 11 ∧
    lookup (batch_insert [((1 : Nat), (10 : Nat))] [(1, 11), (1, 12)]).2 1 ≠ some 10 := by
  decide

/-- C6 amended. `batch_insert` upserts every pair in iteration order, so the
final binding of a key duplicated in the input is the last value given for it;
the returned map sends each key to the value it had immediately before its
last insertion in the batch, when that insertion had one: a key occurring once
maps to its pre-batch value when present before the batch (and is absent from
the map otherwise), while a key occurring at least twice maps to the
next-to-last value given for it in the input rather than its pre-batch value. -/
theorem batch_insert_spec (t : Table K V) (pairs : List (K × V)) (k : K) :
    (lookup (batch_insert t pairs).1 k
       = match lastVal k pairs with
         | some w => some w
         | none => lookup t k) ∧
    (lookup (batch_insert t pairs).2 k
       = match beforeLast (occVals k pairs) with
         | some w => some w
         | none => if (occVals k pairs).isEmpty then none else lookup t k) := by
  constructor
  · exact batch_insert_go_fst pairs t [] k
  · rw [batch_insert, batch_insert_go_snd pairs t [] k]
    simp only [lookup]
    cases beforeLast (occVals k pairs) with
    | some w => rfl
    | none =>
        cases (occVals k pairs).isEmpty with
        | true => rfl
        | false =>
            simp only [Bool.false_eq_true, if_false]
            cases lookup t k <;> rfl

theorem batch_insert_fallible_go_no_fail (pairs : List (K × V)) :
    ∀ (t old : Table K V) (i : Nat),
      batch_insert_fallible_go t old (fun _ => false) i pairs
        = .ok (batch_insert_go t old pairs) := by
  induction pairs with
  | nil =>
      intro t old i
      simp [batch_insert_fallible_go, batch_insert_go]
  | cons hd rest ih =>
      intro t old i
      obtain ⟨k, v⟩ := hd
      cases hlk : lookup t k with
      | none =>
          simp only [batch_insert_fallible_go, batch_insert_go, hlk, Bool.false_eq_true, if_false]
          exact ih _ _ _
      | some ov =>
          simp only [batch_insert_fallible_go, batch_insert_go, hlk, Bool.false_eq_true, if_false]
          exact ih _ _ _

/-- C1. Batch atomicity of `batch_insert`: the call runs inside one write
transaction committed once at the end. If any step inside the batch fails
before commit — modelled by an injected engine failure at any loop step — the
call returns the error and the store's table is exactly what it was before the
call, containing none of the inserted pairs; and an uninterrupted run installs
precisely the single-commit result of the batch. -/
theorem batch_insert_atomicity (db : Table K V) (pairs : List (K × V)) (fail : Nat → Bool) :
    ((∃ e, (batch_insert_fallible db pairs fail).2 = .error e) →
        (batch_insert_fallible db pairs fail).1 = db) ∧
    batch_insert_fallible db pairs (fun _ => false)
      = ((batch_insert db pairs).1, .ok (batch_insert db pairs).2) := by
  constructor
  · rintro ⟨e, he⟩
    rw [batch_insert_fallible] at he ⊢
    cases hgo : batch_insert_fallible_go db [] fail 0 pairs with
    | error e2 => rfl
    | ok p =>
        rw [hgo] at he
        cases he
  · rw [batch_insert_fallible, batch_insert_fallible_go_no_fail pairs db [] 0, batch_insert]

/-- Witness for C1: with the table holding `(1, 2)` and a failure injected at
the second loop step of a two-pair batch, the call fails and the table is
unchanged — in particular it does not contain the first pair of the batch. -/
theorem batch_insert_atomicity_witness :
    (batch_insert_fallible [((1 : Nat), (2 : Nat))] [(3, 4), (5, 6)]
        (fun i => i == 1)).2 = .error DbError.engineFailure ∧
    (batch_insert_fallible [((1 : Nat), (2 : Nat))] [(3, 4), (5, 6)]
        (fun i => i == 1)).1 = [(1, 2)] :=
  ⟨by decide,
   (batch_insert_atomicity [(1, 2)] [(3, 4), (5, 6)] (fun i => i == 1)).1
     ⟨DbError.engineFailure, by decide⟩⟩

theorem mem_mlookup (m : MTable K V) (k : K) (v : V) :
    v ∈ mlookup m k ↔ (k, v) ∈ m := by
  simp only [mlookup, List.mem_map, List.mem_filter, decide_eq_true_eq]
  constructor
  · rintro ⟨⟨k2, v2⟩, ⟨hm, hk⟩, hv⟩
    subst hk
    subst hv
    exact hm
  · intro h
    exact ⟨(k, v), ⟨h, rfl⟩, rfl⟩

theorem mem_minsert (m : MTable K V) (k : K) (w : V) (k2 : K) (v : V) :
    (k2, v) ∈ (minsert m k w).1 ↔ ((k2, v) ∈ m ∨ (k2, v) = (k, w)) := by
  by_cases h : (k, w) ∈ m
  · simp only [minsert, if_pos h]
    constructor
    · exact Or.inl
    · rintro (hm | he)
      · exact hm
      · rw [he]
        exact h
  · simp [minsert, if_neg h, List.mem_append]

theorem mem_foldl_minsert (vs : List V) :
    ∀ (m : MTable K V) (k : K) (k2 : K) (v : V),
      (k2, v) ∈ vs.foldl (fun acc w => (minsert acc k w).1) m ↔
        ((k2, v) ∈ m ∨ (k2 = k ∧ v ∈ vs)) := by
  induction vs with
  | nil =>
      intro m k k2 v
      simp
  | cons w ws ih =>
      intro m k k2 v
      simp only [List.foldl_cons]
      rw [ih, mem_minsert]
      simp only [List.mem_cons, Prod.mk.injEq]
      tauto

/-- C7. `multimap_assign` replace semantics: afterwards the value set of the
key consists exactly of the assigned values (no union with the prior set),
value sets of other keys are untouched, and the call returns `true` iff the
key had at least one value mapped before the call. -/
theorem multimap_assign_spec (m : MTable K V) (k : K) (vs : List V) :
    (∀ v, v ∈ mlookup (multimap_assign m k vs).1 k ↔ v ∈ vs) ∧
    ((multimap_assign m k vs).2 = true ↔ mlookup m k ≠ []) ∧
    (∀ k' v, k' ≠ k → (v ∈ mlookup (multimap_assign m k vs).1 k' ↔ v ∈ mlookup m k')) := by
  refine ⟨?_, ?_, ?_⟩
  · intro v
    rw [mem_mlookup]
    simp only [multimap_assign, mremove_all]
    rw [mem_foldl_minsert]
    simp [List.mem_filter]
  · simp only [multimap_assign, mremove_all, Bool.not_eq_true']
    cases hE : mlookup m k <;> simp
  · intro k' v hk
    rw [mem_mlookup, mem_mlookup]
    simp only [multimap_assign, mremove_all]
    rw [mem_foldl_minsert]
    simp [List.mem_filter, hk]

/-- Witness for C7: with key 1 mapped to `{5, 6}` and key 2 to `{9}`,
`multimap_assign 1 [7]` leaves 7 in the value set of 1, reports that 1 had a
prior non-empty set, and leaves 9 in the value set of 2. -/
theorem multimap_assign_spec_witness :
    7 ∈ mlookup (multimap_assign [((1 : Nat), (5 : Nat)), (1, 6), (2, 9)] 1 [7]).1 1 ∧
    (multimap_assign [((1 : Nat), (5 : Nat)), (1, 6), (2, 9)] 1 [7]).2 = true ∧
    9 ∈ mlookup (multimap_assign [((1 : Nat), (5 : Nat)), (1, 6), (2, 9)] 1 [7]).1 2 :=
  ⟨((multimap_assign_spec [(1, 5), (1, 6), (2, 9)] 1 [7]).1 7).mpr (by decide),
   ((multimap_assign_spec [(1, 5), (1, 6), (2, 9)] 1 [7]).2.1).mpr (by decide),
   ((multimap_assign_spec [(1, 5), (1, 6), (2, 9)] 1 [7]).2.2 2 9 (by decide)).mpr (by decide)⟩

/-- C8. `update`: when the key is present with value `v`, the call applies the
edit to the decoded copy, re-inserts the edited value, and returns the old
value `v` — so a following lookup of the key yields the edited value while
other keys are untouched; when the key is absent, the call fails with
`notFound` and its outcome does not depend on the edit function, which is
never invoked. -/
theorem update_spec (t : Table K V) (k : K) (edit : V → V) :
    (∀ v, lookup t k = some v →
       update t k edit = .ok (upsert t k (edit v), v) ∧
       lookup (upsert t k (edit v)) k = some (edit v) ∧
       (∀ k', k' ≠ k → lookup (upsert t k (edit v)) k' = lookup t k')) ∧
    (lookup t k = none → ∀ edit2 : V → V, update t k edit2 = .error .notFound) := by
  constructor
  · intro v hv
    refine ⟨?_, lookup_upsert_self t k (edit v),
      fun k' hk => lookup_upsert_ne t k' k (edit v) hk⟩
    simp only [update, hv]
  · intro h edit2
    simp only [update, h]

/-- Witness for C8: on the table `[(1, 10)]`, updating key 1 with the
successor edit returns the old value 10 and stores 11; on the empty table the
same update fails with `notFound`. -/
theorem update_spec_witness :
    update [((1 : Nat), (10 : Nat))] 1 (fun v => v + 1)
        = .ok (upsert [(1, 10)] 1 ((fun v : Nat => v + 1) 10), 10) ∧
    update ([] : Table Nat Nat) 1 (fun v => v + 1) = .error DbError.notFound :=
  ⟨((update_spec [(1, 10)] 1 (fun v => v + 1)).1 10 (by decide)).1,
   (update_spec ([] : Table Nat Nat) 1 (fun v => v + 1)).2 (by decide) (fun v => v + 1)⟩

/-- C9 counterexample: on a store whose table was never created, `get`
returns `none` but auto-creates the empty table as a side effect, so the
subsequent `delete_table` returns `true` — the claim requires it to return
`false`. -/
theorem get_autocreates_counterexample :
    (get ({ table := none } : Store Nat Nat) 1).2 = none ∧
    (delete_table (get ({ table := none } : Store Nat Nat) 1).1).2 = true := by
  decide

/-- C9 amended. `get` returns `none` whenever the table or the key is absent,
and on a store whose table exists it leaves the store exactly as it was; but a
`get` on a never-created table creates that (empty) table as a side effect of
the read path, so a subsequent `delete_table` returns `true`, not `false`. -/
theorem get_read_spec (s : Store K V) (k : K) :
    ((get s k).2 = match s.table with
       | none => none
       | some t => lookup t k) ∧
    (∀ t, s.table = some t → (get s k).1 = s) ∧
    (s.table = none →
       (get s k).1 = { table := some [] } ∧ (delete_table (get s k).1).2 = true) := by
  cases hs : s.table with
  | none =>
      refine ⟨?_, ?_, ?_⟩
      · simp [get, read_table, hs, lookup]
      · intro t ht
        exact Option.noConfusion ht
      · intro _
        constructor
        · simp [get, read_table, hs]
        · simp [get, read_table, delete_table, hs]
  | some t =>
      refine ⟨?_, ?_, ?_⟩
      · simp [get, read_table, hs]
      · intro t' ht
        simp [get, read_table, hs]
      · intro h
        exact Option.noConfusion h

/-- Witness for C9's amended theorem: `get` on a store with an existing table
leaves the store unchanged, and `get` on a never-created table makes the
following `delete_table` return `true`. -/
theorem get_read_spec_witness :
    (get ({ table := some [(1, 2)] } : Store Nat Nat) 1).1 = { table := some [(1, 2)] } ∧
    (delete_table (get ({ table := none } : Store Nat Nat) 1).1).2 = true :=
  ⟨(get_read_spec ({ table := some [(1, 2)] } : Store Nat Nat) 1).2.1 [(1, 2)] rfl,
   ((get_read_spec ({ table := none } : Store Nat Nat) 1).2.2 rfl).2⟩

/-- C10. The multimap read path performs no table auto-creation: on a store
whose multimap table was never created, both `multimap_get` and
`multimap_table` propagate the table-does-not-exist failure as an error — not
an empty set or map — and leave the store exactly as it was. -/
theorem multimap_read_no_autocreate (s : MStore K V) (k : K) (h : s.table = none) :
    multimap_get s k = (s, .error .tableDoesNotExist) ∧
    multimap_table s = (s, .error .tableDoesNotExist) := by
  constructor
  · simp [multimap_get, read_multimap_table, h, Except.map]
  · simp [multimap_table, read_multimap_table, h]

/-- Witness for C10 on the concrete never-created store. -/
theorem multimap_read_no_autocreate_witness :
    multimap_get ({ table := none } : MStore Nat Nat) 1
        = ({ table := none }, .error DbError.tableDoesNotExist) ∧
    multimap_table ({ table := none } : MStore Nat Nat)
        = ({ table := none }, .error DbError.tableDoesNotExist) :=
  multimap_read_no_autocreate ({ table := none } : MStore Nat Nat) 1 rfl

end CakeDb
